import Mathlib

/-!
Verification of the Google-APIs client library: a shallow embedding of
`credentials.py`, `utils.py` and the bulk video-listing path of `core.py`,
together with theorems settling the specification claims about them.

Conventions of the embedding:
* Python `time()` instants and durations are modelled as exact rationals
  (`ℚ`); the float literal `0.97` is the rational `97/100`.
* Python dictionaries are association lists (`List (String × _)`) looked up
  at the first matching key, which matches dict semantics since Python dicts
  never hold duplicate keys and preserve insertion order.
* Fallible Python code (KeyError / ValueError from `str.format`, dict
  subscripts, unpacking) is modelled with `Except` / `Option`.
* Network exchanges are modelled by passing the (successful) server response
  as an explicit argument; the boolean returned by `Credential.refresh`
  records whether a token-endpoint call was performed.
-/

/-- First-match association-list lookup: Python `d[k]` / `d.get(k)`. -/
def lookupKV {β : Type} (l : List (String × β)) (k : String) : Option β :=
  (l.find? (fun p => p.1 == k)).map (fun p => p.2)

/-- `containsSub needle hay`: Python `needle in hay` for strings
(substring containment), on character lists. -/
def containsSub : List Char → List Char → Bool
  | n, [] => n.isEmpty
  | n, h :: t => n.isPrefixOf (h :: t) || containsSub n t

/-- The three credential variants of `credentials.py` (`_cred_type`). -/
inductive CredType where
  | service_account
  | client_id
  | api_key
deriving DecidableEq

/-- Input to `Credential.__init__`: either a bare API-key string or a JSON
record (already loaded from file when a path was given); only the keys of the
record matter for classification, so values are kept as strings. -/
inductive AccSecret where
  | key (s : String)
  | record (fields : List (String × String))
deriving DecidableEq

/-- Python `f in acc_secret`: key membership for a dict, substring
containment for a string. -/
def AccSecret.hasField : AccSecret → String → Bool
  | .key s, f => containsSub f.data s.data
  | .record d, f => d.any (fun kv => kv.1 == f)

/-- The raw key stored as `access_token` for an api_key credential.  (A
field-less *record* is stored wholesale by the Python code; no claim
exercises that corner, so only the string case is given a faithful value.) -/
def AccSecret.rawKey : AccSecret → String
  | .key s => s
  | .record _ => ""

/-- The stored `_oauth_response` dictionary.  For an api_key credential only
`access_token` is present; after a refresh the full token-endpoint response
is stored. -/
structure TokenState where
  access_token : String
  token_type : Option String
  expires_in : Option ℚ
  scope : Option String
deriving DecidableEq

/-- A successful token-endpoint response body
`{access_token, token_type, expires_in, scope}`. -/
structure TokenResponse where
  access_token : String
  token_type : String
  expires_in : ℚ
  scope : String
deriving DecidableEq

/-- The state of a `Credential` instance. -/
structure Credential where
  acc_secret : AccSecret
  cred_type : CredType
  oauth_response : Option TokenState
  expiry : ℚ
  scopes : Option (List String)
deriving DecidableEq

/-- The classification performed by `Credential.__init__` (lines 122-135 of
`credentials.py`): `"client_email" in acc_secret` ⇒ service_account, else
`"refresh_token" in acc_secret` ⇒ client_id, else api_key. -/
def classifyCred (a : AccSecret) : CredType :=
  if a.hasField "client_email" then .service_account
  else if a.hasField "refresh_token" then .client_id
  else .api_key

/-- The scope list hardcoded for service accounts in `__init__`. -/
def defaultServiceScopes : List String :=
  ["https://www.googleapis.com/auth/drive",
   "https://www.googleapis.com/auth/youtube",
   "https://mail.google.com/"]

/-- Python `" ".join`-inverse used by `refresh`: `str.split(sep)` for a
single-character separator, on character lists (structural, so that concrete
instances evaluate in the kernel). -/
def splitCh (sep : Char) : List Char → List (List Char)
  | [] => [[]]
  | c :: rest =>
    if c = sep then [] :: splitCh sep rest
    else
      match splitCh sep rest with
      | [] => [[c]]
      | x :: xs => (c :: x) :: xs

/-- `Credential.__init__` state just before the trailing `self.refresh()`
call, at clock time `now`.  The api_key branch stores the key as the access
token and sets `_expiry = time() + time()`; the other branches leave
`_oauth_response` unset and `_expiry = time()`. -/
def Credential.construct (a : AccSecret) (now : ℚ) : Credential :=
  match classifyCred a with
  | .service_account =>
    { acc_secret := a, cred_type := .service_account, oauth_response := none,
      expiry := now, scopes := some defaultServiceScopes }
  | .client_id =>
    { acc_secret := a, cred_type := .client_id, oauth_response := none,
      expiry := now, scopes := none }
  | .api_key =>
    { acc_secret := a, cred_type := .api_key,
      oauth_response := some
        { access_token := a.rawKey, token_type := none,
          expires_in := none, scope := none },
      expiry := now + now, scopes := some [] }

/-- The token state stored after a successful exchange. -/
def TokenResponse.store (r : TokenResponse) : TokenState :=
  { access_token := r.access_token, token_type := some r.token_type,
    expires_in := some r.expires_in, scope := some r.scope }

/-- `Credential.refresh` at clock time `now`, with `resp` the (successful)
token-endpoint response that would be received if a call is made.  Returns
the new state and whether a token-endpoint call was performed.  Mirrors
lines 142-153 of `credentials.py`: refresh fires only when
`time() > self._expiry`; both refreshing branches set
`_expiry = now + expires_in * 0.97`, and the client_id branch additionally
replaces `_scopes` with the space-split granted scope string. -/
def Credential.refresh (c : Credential) (now : ℚ) (resp : TokenResponse) :
    Credential × Bool :=
  if c.expiry < now then
    match c.cred_type with
    | .service_account =>
      ({ c with oauth_response := some resp.store,
                expiry := now + resp.expires_in * (97/100) }, true)
    | .client_id =>
      ({ c with oauth_response := some resp.store,
                scopes := some ((splitCh ' ' resp.scope.data).map String.mk),
                expiry := now + resp.expires_in * (97/100) }, true)
    | .api_key => (c, false)
  else (c, false)

/-- The `token_type` property: the literal `"X-goog-api-key"` for api_key
credentials, otherwise `_oauth_response["token_type"]` (absent ⇒ KeyError,
modelled as `none`). -/
def Credential.token_type (c : Credential) : Option String :=
  if c.cred_type = .api_key then some "X-goog-api-key"
  else c.oauth_response.bind TokenState.token_type

/-- The `token` property after any refresh: `_oauth_response["access_token"]`. -/
def Credential.token (c : Credential) : Option String :=
  c.oauth_response.map TokenState.access_token

/-- The `headers` property: triggers `refresh()` and then builds
`{"Authorization": f"<token_type> <token>"}` — for every credential type,
including api_key.  The repeated implicit refreshes triggered by the
`token_type`/`token` property reads are collapsed into the single leading
one (they are no-ops immediately after it). -/
def Credential.headers (c : Credential) (now : ℚ) (resp : TokenResponse) :
    Option (List (String × String)) :=
  let c' := (c.refresh now resp).1
  match c'.token_type, c'.token with
  | some tt, some tk => some [("Authorization", tt ++ " " ++ tk)]
  | _, _ => none

/-- A fixed concrete token-endpoint response used in concrete evaluations. -/
def sampleResp : TokenResponse :=
  { access_token := "tok", token_type := "Bearer",
    expires_in := 3600, scope := "s1 s2" }

/-- C1: evaluation of the code at the failing input.  For an ApiKey
credential constructed from the bare key `"SECRET"`, `headers()` returns
`{"Authorization": "X-goog-api-key SECRET"}` — the single header key is
`"Authorization"` and no `"X-goog-api-key"` key is present — contradicting
the claim that the mapping is `{"X-goog-api-key": "SECRET"}` with no
`Authorization` key.  (For ServiceAccount/OAuthClient credentials with a
valid token state the code does return
`{"Authorization": "<token_type> <access_token>"}`, as also evaluated
here.) -/
theorem c1_apikey_headers_eval :
    (Credential.construct (AccSecret.key "SECRET") 50).headers 200 sampleResp
      = some [("Authorization", "X-goog-api-key SECRET")]
    ∧ lookupKV [("Authorization", "X-goog-api-key SECRET")] "X-goog-api-key"
      = none
    ∧ ({ acc_secret := AccSecret.record [("refresh_token", "r")],
         cred_type := .client_id, oauth_response := some sampleResp.store,
         expiry := 100, scopes := none : Credential }).headers 50 sampleResp
      = some [("Authorization", "Bearer tok")] := by
  refine ⟨?_, by decide, ?_⟩
  · show Credential.headers
      { acc_secret := AccSecret.key "SECRET", cred_type := .api_key,
        oauth_response := some
          { access_token := "SECRET", token_type := none,
            expires_in := none, scope := none },
        expiry := (50 : ℚ) + 50, scopes := some [] } 200 sampleResp = _
    have h : ((50 : ℚ) + 50) < 200 := by norm_num
    simp [Credential.headers, Credential.refresh, h, Credential.token_type,
      Credential.token]
  · have h : ¬ ((100 : ℚ) < 50) := by norm_num
    simp [Credential.headers, Credential.refresh, h, Credential.token_type,
      Credential.token, sampleResp, TokenResponse.store]

/-- C5: for ServiceAccount or OAuthClient credentials, a refresh that
performs a token exchange at clock time `now` with server-reported ttl
`expires_in` sets the new expiry to `now + expires_in * 0.97`; and whenever
`now ≤ expiry` the refresh changes no state and performs no token-endpoint
call. -/
theorem c5_refresh_expiry (c : Credential) (now : ℚ) (resp : TokenResponse)
    (h : c.cred_type = .service_account ∨ c.cred_type = .client_id) :
    (c.expiry < now →
      ((c.refresh now resp).1.expiry = now + resp.expires_in * (97/100)
        ∧ (c.refresh now resp).2 = true))
    ∧ (now ≤ c.expiry → c.refresh now resp = (c, false)) := by
  constructor
  · intro hlt
    rcases h with h | h <;> simp [Credential.refresh, hlt, h]
  · intro hle
    have : ¬ (c.expiry < now) := not_lt.mpr hle
    simp [Credential.refresh, this]

/-- C5 witness: a freshly constructed service-account credential (expiry 0)
refreshed at time 1 with a 3600-second ttl gets expiry `1 + 3600 * 0.97`,
and a credential whose expiry lies in the future is returned unchanged with
no call made. -/
theorem c5_refresh_expiry_witness :
    (((Credential.construct (AccSecret.record [("client_email", "e")]) 0).refresh
        1 sampleResp).1.expiry = 1 + (3600 : ℚ) * (97/100)
      ∧ ((Credential.construct (AccSecret.record [("client_email", "e")]) 0).refresh
        1 sampleResp).2 = true)
    ∧ (Credential.construct (AccSecret.record [("client_email", "e")]) 5).refresh
        2 sampleResp
      = (Credential.construct (AccSecret.record [("client_email", "e")]) 5, false) := by
  have h : classifyCred (AccSecret.record [("client_email", "e")])
      = CredType.service_account := by decide
  constructor
  · exact (c5_refresh_expiry _ 1 sampleResp (Or.inl rfl)).1
      (by simp [Credential.construct, h])
  · exact (c5_refresh_expiry _ 2 sampleResp (Or.inl rfl)).2
      (by simp [Credential.construct, h]; norm_num)

/-- C6 counterexample: the bare string `"xclient_emailx"` is an input record
matching neither the ServiceAccount nor the OAuthClient shape (a bare string
has no fields at all), yet construction classifies it as ServiceAccount,
because Python's `"client_email" in acc_secret` is a *substring* test when
`acc_secret` is a string.  The claim says any such input is classified
ApiKey. -/
theorem c6_string_substring_counterexample :
    classifyCred (AccSecret.key "xclient_emailx") = CredType.service_account
    ∧ (Credential.construct (AccSecret.key "xclient_emailx") 0).cred_type
      = CredType.service_account
    ∧ CredType.service_account ≠ CredType.api_key := by
  refine ⟨by decide, ?_, by decide⟩
  have h : classifyCred (AccSecret.key "xclient_emailx")
      = CredType.service_account := by decide
  simp [Credential.construct, h]

/-- C6 (amended): construction classifies deterministically into exactly one
variant, from field *presence* for record inputs (issuer-email key ⇒
ServiceAccount, else refresh-token key ⇒ OAuthClient, else ApiKey) and from
*substring containment* of `"client_email"` / `"refresh_token"` for bare
string inputs — so a bare string is ApiKey exactly when it contains neither
substring; and the classification never changes after construction (refresh
preserves `cred_type`). -/
theorem c6_classification_amended :
    (∀ d : List (String × String),
      classifyCred (.record d)
        = (if d.any (fun kv => kv.1 == "client_email") then CredType.service_account
           else if d.any (fun kv => kv.1 == "refresh_token") then CredType.client_id
           else CredType.api_key))
    ∧ (∀ s : String,
      classifyCred (.key s)
        = (if containsSub "client_email".data s.data then CredType.service_account
           else if containsSub "refresh_token".data s.data then CredType.client_id
           else CredType.api_key))
    ∧ (∀ (a : AccSecret) (now : ℚ),
      (Credential.construct a now).cred_type = classifyCred a)
    ∧ (∀ (c : Credential) (now : ℚ) (resp : TokenResponse),
      ((c.refresh now resp).1).cred_type = c.cred_type) := by
  refine ⟨fun d => rfl, fun s => rfl, fun a now => ?_, fun c now resp => ?_⟩
  · cases h : classifyCred a <;> simp [Credential.construct, h]
  · by_cases hlt : c.expiry < now
    · cases h : c.cred_type <;> simp [Credential.refresh, hlt, h]
    · simp [Credential.refresh, hlt]

/-- Python exception kinds raised by the builder code paths we model. -/
inductive PyError where
  | keyError (k : String)
  | valueError (msg : String)
deriving DecidableEq

/-- A JSON-ish Python value, as far as the builder needs one. -/
inductive Value where
  | vnull
  | vbool (b : Bool)
  | vint (n : Int)
  | vstr (s : String)
deriving DecidableEq

/-- Python truthiness, used by `locals.get(k) if locals.get(k) else ...`. -/
def truthy : Value → Bool
  | .vnull => false
  | .vbool b => b
  | .vint n => n != 0
  | .vstr s => s != ""

/-- Python `str(v)` for the modelled values. -/
def pyStr : Value → String
  | .vnull => "None"
  | .vbool true => "True"
  | .vbool false => "False"
  | .vint n => toString n
  | .vstr s => s

/-- Python `d.get(k)` where an absent key and a stored `None` are the same
observable result. -/
def pyGet (l : List (String × Value)) (k : String) : Value :=
  (lookupKV l k).getD .vnull

/-- Scanner state of `str.format`: outside any braces, just after `{`, just
after `}`, or inside a replacement field accumulating its name. -/
inductive FmtSt where
  | normal
  | openB
  | closeB
  | field (nm : List Char)

/-- `str.format(**args)` as a character-at-a-time state machine (the lazy
left-to-right semantics of CPython): `{{`/`}}` are literal braces, `{name}`
substitutes `str(args[name])` or raises KeyError, a lone `{` or `}` raises
ValueError, and an empty field (auto-numbering, which always fails with
keyword-only arguments) raises.  Conversion/format-spec syntax (`!r`, `:x`),
which never occurs in discovery path templates, is not modelled. -/
def fmtAux (args : List (String × Value)) : List Char → FmtSt → Except PyError (List Char)
  | [], .normal => .ok []
  | [], .openB => .error (.valueError "single brace at end of string")
  | [], .closeB => .error (.valueError "single brace at end of string")
  | [], .field _ => .error (.valueError "unterminated replacement field")
  | c :: rest, .normal =>
    if c = '{' then fmtAux args rest .openB
    else if c = '}' then fmtAux args rest .closeB
    else (fmtAux args rest .normal).map (fun cs => c :: cs)
  | c :: rest, .openB =>
    if c = '{' then (fmtAux args rest .normal).map (fun cs => '{' :: cs)
    else if c = '}' then .error (.keyError "")
    else fmtAux args rest (.field [c])
  | c :: rest, .closeB =>
    if c = '}' then (fmtAux args rest .normal).map (fun cs => '}' :: cs)
    else .error (.valueError "single closing brace")
  | c :: rest, .field nm =>
    if c = '}' then
      match lookupKV args (String.mk nm) with
      | some v => (fmtAux args rest .normal).map (fun cs => (pyStr v).data ++ cs)
      | none => .error (.keyError (String.mk nm))
    else if c = '{' then .error (.valueError "unexpected brace in field name")
    else fmtAux args rest (.field (nm ++ [c]))

/-- The replacement-field names of a template, `none` when the template is
malformed (so that `str.format` fails regardless of the arguments).  Mirrors
the state machine of `fmtAux` exactly. -/
def fmtHoles : List Char → FmtSt → Option (List String)
  | [], .normal => some []
  | [], .openB => none
  | [], .closeB => none
  | [], .field _ => none
  | c :: rest, .normal =>
    if c = '{' then fmtHoles rest .openB
    else if c = '}' then fmtHoles rest .closeB
    else fmtHoles rest .normal
  | c :: rest, .openB =>
    if c = '{' then fmtHoles rest .normal
    else if c = '}' then none
    else fmtHoles rest (.field [c])
  | c :: rest, .closeB =>
    if c = '}' then fmtHoles rest .normal
    else none
  | c :: rest, .field nm =>
    if c = '}' then (fmtHoles rest .normal).map (fun hs => String.mk nm :: hs)
    else if c = '{' then none
    else fmtHoles rest (.field (nm ++ [c]))

/-- One entry of a Method Descriptor's `parameters` mapping. -/
structure ParamInfo where
  location : String
deriving DecidableEq

/-- The slice of a discovery Method Descriptor used by `build_params`. -/
structure MethodDoc where
  httpMethod : String
  path : String
  parameters : List (String × ParamInfo)
  request : Option String
deriving DecidableEq

/-- The slice of a discovery Service Document used by `build_params`: the
base URL and the schema definitions (each schema reduced to its declared
property names, the only part the builder reads). -/
structure ServiceDoc where
  baseUrl : String
  schemas : List (String × List String)
deriving DecidableEq

/-- The names the Method Descriptor marks with `"location": "query"`. -/
def queryParamNames (mdoc : MethodDoc) : List String :=
  (mdoc.parameters.filter (fun p => p.2.location == "query")).map (fun p => p.1)

/-- Line 257-259 of `utils.py`: for *every* declared query parameter `k`,
`params[k] = locals.get(k) if locals.get(k) else kwargs.get(k)` — a truthy
direct argument wins, otherwise the nested-kwargs value, otherwise `None`. -/
def buildQueryParams (mdoc : MethodDoc) (locals kwargs : List (String × Value)) :
    List (String × Value) :=
  (queryParamNames mdoc).map
    (fun k => (k, if truthy (pyGet locals k) then pyGet locals k else pyGet kwargs k))

/-- Lines 263-269 of `utils.py`: the body keeps exactly the schema-declared
property names that are present in `locals` (preferred) or in the nested
`kwargs` dict. -/
def buildBody (props : List String) (locals kwargs : List (String × Value)) :
    List (String × Value) :=
  props.filterMap (fun k =>
    if (lookupKV locals k).isSome then some (k, pyGet locals k)
    else if (lookupKV kwargs k).isSome then some (k, pyGet kwargs k)
    else none)

/-- `GoogleAuthBuilder.build_params` (lines 244-271 of `utils.py`) given the
already-resolved service document and method descriptor: format
`baseUrl + path` over the direct arguments, collect the declared query
parameters, and build the allow-listed body when the descriptor references a
request schema.  Returns `(httpMethod, url, params, body)` (the two document
values also returned by the Python code are inputs here). -/
def build_params (sdoc : ServiceDoc) (mdoc : MethodDoc)
    (locals kwargs : List (String × Value)) :
    Except PyError (String × String × List (String × Value) × Option (List (String × Value))) :=
  match fmtAux locals (sdoc.baseUrl ++ mdoc.path).data .normal with
  | .error e => .error e
  | .ok urlCs =>
    match mdoc.request with
    | none => .ok (mdoc.httpMethod, String.mk urlCs, buildQueryParams mdoc locals kwargs, none)
    | some ref =>
      match lookupKV sdoc.schemas ref with
      | none => .error (.keyError ref)
      | some props =>
        .ok (mdoc.httpMethod, String.mk urlCs, buildQueryParams mdoc locals kwargs,
          some (buildBody props locals kwargs))


/-- If a well-formed template has a replacement field whose name is missing
from the arguments, formatting raises. -/
theorem fmtAux_error_of_missing (args : List (String × Value)) :
    ∀ (t : List Char) (st : FmtSt) (hs : List String),
      fmtHoles t st = some hs → ∀ name ∈ hs, lookupKV args name = none →
      ∃ e, fmtAux args t st = .error e := by
  intro t
  induction t with
  | nil =>
    intro st hs h name hn _
    cases st <;> simp [fmtHoles] at h
    subst h; simp at hn
  | cons c rest IH =>
    intro st hs h name hn hl
    cases st with
    | normal =>
      by_cases h1 : c = '{'
      · simp [fmtHoles, h1] at h
        obtain ⟨e, he⟩ := IH .openB hs h name hn hl
        exact ⟨e, by simp [fmtAux, h1, he]⟩
      · by_cases h2 : c = '}'
        · simp [fmtHoles, h1, h2] at h
          obtain ⟨e, he⟩ := IH .closeB hs h name hn hl
          exact ⟨e, by simp [fmtAux, h1, h2, he]⟩
        · simp [fmtHoles, h1, h2] at h
          obtain ⟨e, he⟩ := IH .normal hs h name hn hl
          exact ⟨e, by simp [fmtAux, h1, h2, he, Except.map]⟩
    | openB =>
      by_cases h1 : c = '{'
      · simp [fmtHoles, h1] at h
        obtain ⟨e, he⟩ := IH .normal hs h name hn hl
        exact ⟨e, by simp [fmtAux, h1, he, Except.map]⟩
      · by_cases h2 : c = '}'
        · simp [fmtHoles, h1, h2] at h
        · simp [fmtHoles, h1, h2] at h
          obtain ⟨e, he⟩ := IH (.field [c]) hs h name hn hl
          exact ⟨e, by simp [fmtAux, h1, h2, he]⟩
    | closeB =>
      by_cases h1 : c = '}'
      · simp [fmtHoles, h1] at h
        obtain ⟨e, he⟩ := IH .normal hs h name hn hl
        exact ⟨e, by simp [fmtAux, h1, he, Except.map]⟩
      · simp [fmtHoles, h1] at h
    | field nm =>
      by_cases h1 : c = '}'
      · simp only [fmtHoles, if_pos h1] at h
        rw [Option.map_eq_some'] at h
        obtain ⟨hs', hh, rfl⟩ := h
        cases hlk : lookupKV args (String.mk nm) with
        | none =>
          exact ⟨.keyError (String.mk nm), by simp [fmtAux, h1, hlk]⟩
        | some v =>
          rcases List.mem_cons.mp hn with rfl | hn'
          · rw [hl] at hlk; cases hlk
          · obtain ⟨e, he⟩ := IH .normal hs' hh name hn' hl
            exact ⟨e, by simp [fmtAux, h1, hlk, he, Except.map]⟩
      · by_cases h2 : c = '{'
        · simp [fmtHoles, h1, h2] at h
        · simp [fmtHoles, h1, h2] at h
          obtain ⟨e, he⟩ := IH (.field (nm ++ [c])) hs h name hn hl
          exact ⟨e, by simp [fmtAux, h1, h2, he]⟩

/-- If a well-formed template's replacement-field names are all present in
the arguments, formatting succeeds. -/
theorem fmtAux_ok_of_total (args : List (String × Value)) :
    ∀ (t : List Char) (st : FmtSt) (hs : List String),
      fmtHoles t st = some hs → (∀ n ∈ hs, (lookupKV args n).isSome) →
      ∃ cs, fmtAux args t st = .ok cs := by
  intro t
  induction t with
  | nil =>
    intro st hs h _
    cases st <;> simp [fmtHoles] at h
    exact ⟨[], rfl⟩
  | cons c rest IH =>
    intro st hs h hall
    cases st with
    | normal =>
      by_cases h1 : c = '{'
      · simp [fmtHoles, h1] at h
        obtain ⟨cs, hc⟩ := IH .openB hs h hall
        exact ⟨cs, by simp [fmtAux, h1, hc]⟩
      · by_cases h2 : c = '}'
        · simp [fmtHoles, h1, h2] at h
          obtain ⟨cs, hc⟩ := IH .closeB hs h hall
          exact ⟨cs, by simp [fmtAux, h1, h2, hc]⟩
        · simp [fmtHoles, h1, h2] at h
          obtain ⟨cs, hc⟩ := IH .normal hs h hall
          exact ⟨c :: cs, by simp [fmtAux, h1, h2, hc, Except.map]⟩
    | openB =>
      by_cases h1 : c = '{'
      · simp [fmtHoles, h1] at h
        obtain ⟨cs, hc⟩ := IH .normal hs h hall
        exact ⟨'{' :: cs, by simp [fmtAux, h1, hc, Except.map]⟩
      · by_cases h2 : c = '}'
        · simp [fmtHoles, h1, h2] at h
        · simp [fmtHoles, h1, h2] at h
          obtain ⟨cs, hc⟩ := IH (.field [c]) hs h hall
          exact ⟨cs, by simp [fmtAux, h1, h2, hc]⟩
    | closeB =>
      by_cases h1 : c = '}'
      · simp [fmtHoles, h1] at h
        obtain ⟨cs, hc⟩ := IH .normal hs h hall
        exact ⟨'}' :: cs, by simp [fmtAux, h1, hc, Except.map]⟩
      · simp [fmtHoles, h1] at h
    | field nm =>
      by_cases h1 : c = '}'
      · simp only [fmtHoles, if_pos h1] at h
        rw [Option.map_eq_some'] at h
        obtain ⟨hs', hh, rfl⟩ := h
        have hmem : (lookupKV args (String.mk nm)).isSome :=
          hall _ (List.mem_cons_self _ _)
        obtain ⟨v, hv⟩ := Option.isSome_iff_exists.mp hmem
        obtain ⟨cs, hc⟩ := IH .normal hs' hh
          (fun n hn => hall n (List.mem_cons_of_mem _ hn))
        exact ⟨(pyStr v).data ++ cs, by simp [fmtAux, h1, hv, hc, Except.map]⟩
      · by_cases h2 : c = '{'
        · simp [fmtHoles, h1, h2] at h
        · simp [fmtHoles, h1, h2] at h
          obtain ⟨cs, hc⟩ := IH (.field (nm ++ [c])) hs h hall
          exact ⟨cs, by simp [fmtAux, h1, h2, hc]⟩

/-- Inversion of a successful `build_params` run: the verb comes from the
descriptor, the url from the formatted template, the query mapping from
`buildQueryParams`, and the body from `buildBody` exactly when a request
schema is referenced. -/
theorem build_params_ok_inv {sdoc : ServiceDoc} {mdoc : MethodDoc}
    {locals kwargs : List (String × Value)} {m u : String}
    {ps : List (String × Value)} {bd : Option (List (String × Value))}
    (h : build_params sdoc mdoc locals kwargs = .ok (m, u, ps, bd)) :
    m = mdoc.httpMethod
    ∧ (∃ cs, fmtAux locals (sdoc.baseUrl ++ mdoc.path).data .normal = .ok cs
        ∧ u = String.mk cs)
    ∧ ps = buildQueryParams mdoc locals kwargs
    ∧ (mdoc.request = none → bd = none)
    ∧ (∀ ref, mdoc.request = some ref →
        ∃ props, lookupKV sdoc.schemas ref = some props
          ∧ bd = some (buildBody props locals kwargs)) := by
  unfold build_params at h
  cases hf : fmtAux locals (sdoc.baseUrl ++ mdoc.path).data .normal with
  | error e =>
    rw [hf] at h
    dsimp only at h
    exact Except.noConfusion h
  | ok cs =>
    rw [hf] at h
    dsimp only at h
    cases hr : mdoc.request with
    | none =>
      rw [hr] at h
      dsimp only at h
      injection h with h'
      simp only [Prod.mk.injEq] at h'
      obtain ⟨h1, h2, h3, h4⟩ := h'
      subst h1; subst h2; subst h3; subst h4
      refine ⟨rfl, ⟨cs, rfl, rfl⟩, rfl, fun _ => rfl, ?_⟩
      intro ref href
      exact Option.noConfusion href
    | some ref =>
      rw [hr] at h
      dsimp only at h
      cases hsch : lookupKV sdoc.schemas ref with
      | none =>
        rw [hsch] at h
        dsimp only at h
        exact Except.noConfusion h
      | some props =>
        rw [hsch] at h
        dsimp only at h
        injection h with h'
        simp only [Prod.mk.injEq] at h'
        obtain ⟨h1, h2, h3, h4⟩ := h'
        subst h1; subst h2; subst h3; subst h4
        refine ⟨rfl, ⟨cs, rfl, rfl⟩, rfl, fun hn => Option.noConfusion hn, ?_⟩
        intro ref' href'
        injection href' with he
        subst he
        exact ⟨props, hsch, rfl⟩

/-- C3: a `{name}` placeholder of the URL path template with no value among
the direct arguments makes the build raise (no request is produced); when
every placeholder has a value the built URL is the formatted concatenation
of base URL and template, as in the concrete instance: template `/a/{id}/b`
with `id = "X"` yields `.../a/X/b`, while omitting `id` raises. -/
theorem c3_path_placeholders :
    (∀ (sdoc : ServiceDoc) (mdoc : MethodDoc)
        (locals kwargs : List (String × Value)) (hs : List String) (name : String),
      fmtHoles (sdoc.baseUrl ++ mdoc.path).data .normal = some hs →
      name ∈ hs → lookupKV locals name = none →
      ∃ e, build_params sdoc mdoc locals kwargs = .error e)
    ∧ (∀ (sdoc : ServiceDoc) (mdoc : MethodDoc)
        (locals kwargs : List (String × Value)) (hs : List String),
      fmtHoles (sdoc.baseUrl ++ mdoc.path).data .normal = some hs →
      (∀ n ∈ hs, (lookupKV locals n).isSome) →
      ∃ cs, fmtAux locals (sdoc.baseUrl ++ mdoc.path).data .normal = .ok cs
        ∧ ∀ m u ps bd, build_params sdoc mdoc locals kwargs = .ok (m, u, ps, bd) →
            u = String.mk cs)
    ∧ build_params ⟨"https://ex.googleapis.com", []⟩ ⟨"GET", "/a/{id}/b", [], none⟩
        [("id", Value.vstr "X")] []
      = .ok ("GET", "https://ex.googleapis.com/a/X/b", [], none)
    ∧ (∃ e, build_params ⟨"https://ex.googleapis.com", []⟩
        ⟨"GET", "/a/{id}/b", [], none⟩ [] [] = .error e) := by
  refine ⟨?_, ?_, rfl, ⟨.keyError "id", rfl⟩⟩
  · intro sdoc mdoc locals kwargs hs name hh hn hl
    obtain ⟨e, he⟩ := fmtAux_error_of_missing locals _ _ hs hh name hn hl
    refine ⟨e, ?_⟩
    unfold build_params
    rw [he]
  · intro sdoc mdoc locals kwargs hs hh hall
    obtain ⟨cs, hc⟩ := fmtAux_ok_of_total locals _ _ hs hh hall
    refine ⟨cs, hc, ?_⟩
    intro m u ps bd hb
    obtain ⟨-, ⟨cs', hc', hu⟩, -, -, -⟩ := build_params_ok_inv hb
    rw [hc] at hc'
    injection hc' with he
    rw [hu, he]

/-- C3 witness: instantiating the universal parts at a template with the
placeholder `{zed}`: an argument bag lacking `zed` makes the build raise,
and one supplying `zed = "7"` builds the substituted URL. -/
theorem c3_path_placeholders_witness :
    (∃ e, build_params ⟨"https://w", []⟩ ⟨"GET", "/x/{zed}", [], none⟩ [] []
      = .error e)
    ∧ (∃ cs, fmtAux [("zed", Value.vstr "7")] ("https://w" ++ "/x/{zed}").data .normal
        = .ok cs
      ∧ ∀ m u ps bd,
          build_params ⟨"https://w", []⟩ ⟨"GET", "/x/{zed}", [], none⟩
            [("zed", Value.vstr "7")] [] = .ok (m, u, ps, bd) →
          u = String.mk cs) := by
  constructor
  · exact c3_path_placeholders.1 ⟨"https://w", []⟩ ⟨"GET", "/x/{zed}", [], none⟩
      [] [] ["zed"] "zed" rfl (by decide) rfl
  · exact c3_path_placeholders.2.1 ⟨"https://w", []⟩ ⟨"GET", "/x/{zed}", [], none⟩
      [("zed", Value.vstr "7")] [] ["zed"] rfl (by decide)

/-- Looking up a key of the generating list in an association list of the
form `l.map (fun k => (k, f k))` yields `f k`. -/
theorem lookupKV_map_self (f : String → Value) :
    ∀ (l : List String) (k : String), k ∈ l →
      lookupKV (l.map (fun x => (x, f x))) k = some (f k) := by
  intro l
  induction l with
  | nil => intro k hk; cases hk
  | cons x xs IH =>
    intro k hk
    by_cases hx : x == k
    · have : x = k := by simpa using hx
      subst this
      simp [lookupKV]
    · rcases List.mem_cons.mp hk with rfl | hk'
      · simp at hx
      · have := IH k hk'
        simpa [lookupKV, List.find?, hx] using this

/-- When the key is present, `pyGet` returns the stored value. -/
theorem pyGet_of_lookup {l : List (String × Value)} {k : String} {w : Value}
    (h : lookupKV l k = some w) : pyGet l k = w := by
  simp [pyGet, h]

/-- C2 counterexample: a method descriptor declaring the single query
parameter `q`, built with an empty argument bag, produces the
query-parameter mapping `{"q": None}` — the declared-but-absent parameter is
*not* omitted; it is present with a null value, contradicting the claim that
no key with a null value is ever produced. -/
theorem c2_null_query_param_counterexample :
    build_params ⟨"https://x", []⟩ ⟨"GET", "/p", [("q", ⟨"query"⟩)], none⟩ [] []
      = .ok ("GET", "https://x/p", [("q", Value.vnull)], none)
    ∧ lookupKV [("q", Value.vnull)] "q" = some Value.vnull := ⟨rfl, rfl⟩

/-- C2 (amended): every key of the built query-parameter mapping is a
declared query parameter (caller-supplied arguments outside the declared
set are dropped), and *every* declared query parameter is present as a key,
bound to the truthy direct argument if any, else to the nested-kwargs value,
else to null — declared-but-absent parameters are not omitted but carried
with a null value (which the HTTP layer then drops when sending). -/
theorem c2_query_params_amended (sdoc : ServiceDoc) (mdoc : MethodDoc)
    (locals kwargs : List (String × Value)) (m u : String)
    (ps : List (String × Value)) (bd : Option (List (String × Value)))
    (h : build_params sdoc mdoc locals kwargs = .ok (m, u, ps, bd)) :
    ps = (queryParamNames mdoc).map
        (fun k => (k, if truthy (pyGet locals k) then pyGet locals k else pyGet kwargs k))
    ∧ (∀ k v, (k, v) ∈ ps → k ∈ queryParamNames mdoc)
    ∧ (∀ k, k ∈ queryParamNames mdoc →
        lookupKV ps k
          = some (if truthy (pyGet locals k) then pyGet locals k else pyGet kwargs k)) := by
  obtain ⟨-, -, hps, -, -⟩ := build_params_ok_inv h
  have hps' : ps = (queryParamNames mdoc).map
      (fun k => (k, if truthy (pyGet locals k) then pyGet locals k else pyGet kwargs k)) := hps
  refine ⟨hps', ?_, ?_⟩
  · intro k v hkv
    rw [hps'] at hkv
    obtain ⟨a, ha, hae⟩ := List.mem_map.mp hkv
    have : a = k := congrArg Prod.fst hae
    exact this ▸ ha
  · intro k hk
    rw [hps']
    exact lookupKV_map_self _ (queryParamNames mdoc) k hk

/-- C2 witness: instantiating the amended theorem on the one-query-parameter
descriptor and an empty argument bag: the built mapping is exactly the
declared list with null values. -/
theorem c2_query_params_amended_witness :
    [("q", Value.vnull)]
      = (queryParamNames ⟨"GET", "/p", [("q", ⟨"query"⟩)], none⟩).map
        (fun k => (k, if truthy (pyGet [] k) then pyGet [] k else pyGet [] k)) :=
  (c2_query_params_amended ⟨"https://x", []⟩ ⟨"GET", "/p", [("q", ⟨"query"⟩)], none⟩
    [] [] "GET" "https://x/p" [("q", Value.vnull)] none rfl).1

/-- C4: the built body exists exactly when the descriptor references a
request schema, and then contains exactly the keys that are both declared by
the schema and supplied by the caller (directly or in the nested kwargs
dict), with the caller's values (direct arguments preferred); as in the
concrete instance: schema fields `{title, index}` with arguments
`{title: "T", extra: "E"}` yield the body `{"title": "T"}`. -/
theorem c4_body_allowlist :
    (∀ (sdoc : ServiceDoc) (mdoc : MethodDoc)
        (locals kwargs : List (String × Value)) (m u : String)
        (ps : List (String × Value)) (bd : Option (List (String × Value))),
      build_params sdoc mdoc locals kwargs = .ok (m, u, ps, bd) →
      (mdoc.request = none → bd = none)
      ∧ (∀ ref props bl, mdoc.request = some ref →
          lookupKV sdoc.schemas ref = some props → bd = some bl →
          (∀ k, (∃ v, (k, v) ∈ bl) ↔
            (k ∈ props ∧ ((lookupKV locals k).isSome ∨ (lookupKV kwargs k).isSome)))
          ∧ (∀ k v, (k, v) ∈ bl →
              lookupKV locals k = some v
              ∨ (lookupKV locals k = none ∧ lookupKV kwargs k = some v))))
    ∧ build_params ⟨"https://x", [("Req", ["title", "index"])]⟩
        ⟨"POST", "/p", [], some "Req"⟩
        [("title", Value.vstr "T"), ("extra", Value.vstr "E")] []
      = .ok ("POST", "https://x/p", [], some [("title", Value.vstr "T")]) := by
  refine ⟨?_, rfl⟩
  intro sdoc mdoc locals kwargs m u ps bd h
  obtain ⟨-, -, -, hnone, hsome⟩ := build_params_ok_inv h
  refine ⟨hnone, ?_⟩
  intro ref props bl href hprops hbl
  obtain ⟨props', hprops', hbd⟩ := hsome ref href
  rw [hprops] at hprops'
  injection hprops' with hpe
  subst hpe
  rw [hbl] at hbd
  injection hbd with hble
  subst hble
  constructor
  · intro k
    constructor
    · rintro ⟨v, hv⟩
      obtain ⟨a, ha, hae⟩ := List.mem_filterMap.mp hv
      by_cases hla : (lookupKV locals a).isSome
      · rw [if_pos hla] at hae
        injection hae with h1
        injection h1 with hak h2
        exact hak ▸ ⟨ha, Or.inl hla⟩
      · rw [if_neg hla] at hae
        by_cases hka : (lookupKV kwargs a).isSome
        · rw [if_pos hka] at hae
          injection hae with h1
          injection h1 with hak h2
          exact hak ▸ ⟨ha, Or.inr hka⟩
        · rw [if_neg hka] at hae
          cases hae
    · rintro ⟨hk, hpresent⟩
      by_cases hla : (lookupKV locals k).isSome
      · exact ⟨pyGet locals k,
          List.mem_filterMap.mpr ⟨k, hk, by rw [if_pos hla]⟩⟩
      · rcases hpresent with h' | hka
        · exact absurd h' hla
        · exact ⟨pyGet kwargs k,
            List.mem_filterMap.mpr ⟨k, hk, by rw [if_neg hla, if_pos hka]⟩⟩
  · intro k v hv
    obtain ⟨a, _, hae⟩ := List.mem_filterMap.mp hv
    by_cases hla : (lookupKV locals a).isSome
    · rw [if_pos hla] at hae
      injection hae with h1
      injection h1 with hak h2
      subst hak
      obtain ⟨w, hw⟩ := Option.isSome_iff_exists.mp hla
      left
      rw [hw, ← h2, pyGet_of_lookup hw]
    · rw [if_neg hla] at hae
      by_cases hka : (lookupKV kwargs a).isSome
      · rw [if_pos hka] at hae
        injection hae with h1
        injection h1 with hak h2
        subst hak
        obtain ⟨w, hw⟩ := Option.isSome_iff_exists.mp hka
        right
        exact ⟨Option.not_isSome_iff_eq_none.mp hla,
          by rw [hw, ← h2, pyGet_of_lookup hw]⟩
      · rw [if_neg hka] at hae
        cases hae

/-- C4 witness: instantiating the universal part on the concrete schema
`{title, index}` and arguments `{title: "T", extra: "E"}`: the body entry
`("title", "T")` carries the caller's value. -/
theorem c4_body_allowlist_witness :
    lookupKV [("title", Value.vstr "T"), ("extra", Value.vstr "E")] "title"
      = some (Value.vstr "T")
    ∨ (lookupKV [("title", Value.vstr "T"), ("extra", Value.vstr "E")] "title" = none
      ∧ lookupKV ([] : List (String × Value)) "title" = some (Value.vstr "T")) :=
  ((c4_body_allowlist.1 ⟨"https://x", [("Req", ["title", "index"])]⟩
      ⟨"POST", "/p", [], some "Req"⟩
      [("title", Value.vstr "T"), ("extra", Value.vstr "E")] []
      "POST" "https://x/p" [] (some [("title", Value.vstr "T")]) rfl).2
    "Req" ["title", "index"] [("title", Value.vstr "T")] rfl rfl rfl).2
    "title" (Value.vstr "T") (by simp)

/-- `GoogleAuthBuilder.request` response handling (lines 282-291 of
`utils.py`): `response.ok` is `requests` semantics — false exactly for
status codes 400-599, in which case `raise_for_status()` raises with the
response attached (the body having been printed); then a 204 yields `None`;
any other response yields its JSON payload unchanged.  The payload is an
abstract already-parsed value. -/
def request (status : Nat) (payload : String) : Except (Nat × String) (Option String) :=
  if 400 ≤ status ∧ status < 600 then .error (status, payload)
  else if status = 204 then .ok none
  else .ok (some payload)

/-- C8 counterexample: a 304 response has a non-2xx status, yet the dispatch
does not raise — it returns the payload — because the code's "ok" test is
`status < 400` (the `requests` notion), not "2xx". -/
theorem c8_status304_counterexample :
    request 304 "BODY" = .ok (some "BODY")
    ∧ ¬ (200 ≤ 304 ∧ 304 < 300) := by
  exact ⟨rfl, by omega⟩

/-- C8 (amended): dispatch raises `ApiError` carrying the response body
exactly for statuses 400-599; a 204 yields no payload; every other status
(including 1xx and 3xx) yields the JSON payload unchanged, with no domain
interpretation. -/
theorem c8_dispatch_amended (s : Nat) (p : String) :
    (400 ≤ s ∧ s < 600 → request s p = .error (s, p))
    ∧ (s = 204 → request s p = .ok none)
    ∧ (¬ (400 ≤ s ∧ s < 600) → s ≠ 204 → request s p = .ok (some p)) := by
  refine ⟨fun h => ?_, fun h => ?_, fun h1 h2 => ?_⟩
  · simp [request, h]
  · subst h; simp [request]
  · simp [request, h1, h2]

/-- C8 witness: a 500 response raises with the body attached, a 204 yields
no payload, a 200 yields the payload. -/
theorem c8_dispatch_amended_witness :
    request 500 "E" = .error (500, "E")
    ∧ request 204 "X" = .ok none
    ∧ request 200 "B" = .ok (some "B") :=
  ⟨(c8_dispatch_amended 500 "E").1 (by omega),
   (c8_dispatch_amended 204 "X").2.1 rfl,
   (c8_dispatch_amended 200 "B").2.2 (by omega) (by omega)⟩

/-- `split_method` (lines 77-87 of `utils.py`): split the whole string on
`.`; the *first* dot-segment must split on `:` into exactly a service and a
version (Python's tuple unpacking raises otherwise, modelled as `none`); the
remaining segments are reversed. -/
def split_method (m : String) : Option (String × String × List String) :=
  match splitCh '.' m.data with
  | [] => none
  | p :: rest =>
    match splitCh ':' p with
    | [s, v] => some (String.mk s, String.mk v, (rest.map String.mk).reverse)
    | _ => none

/-- Split a character list at the first occurrence of `sep`; `none` when
`sep` does not occur. -/
def breakOnFirst (sep : Char) : List Char → Option (List Char × List Char)
  | [] => none
  | c :: rest =>
    if c = sep then some ([], rest)
    else (breakOnFirst sep rest).map (fun pr => (c :: pr.1, pr.2))

/-- Modelled from the spec's words (claim C7): "parsing splits on the first
`:` to obtain the service and the rest; the rest splits on `.`; the first of
those segments is the version, and the remaining segments, reversed, form
the resource path".  For comparison with `split_method`, which splits on `.`
first. -/
def split_method_claim (m : String) : Option (String × String × List String) :=
  match breakOnFirst ':' m.data with
  | none => none
  | some (s, r) =>
    match splitCh '.' r with
    | [] => none
    | v :: segs => some (String.mk s, String.mk v, (segs.map String.mk).reverse)

/-- The nested resource tree of a discovery document: each node carries a
`resources` mapping to subtrees and a `methods` mapping to method
descriptors (abstracted to an arbitrary payload type). -/
inductive ResTree (α : Type) where
  | node (resources : List (String × ResTree α)) (methods : List (String × α))

def ResTree.resources {α : Type} : ResTree α → List (String × ResTree α)
  | .node r _ => r

def ResTree.methods {α : Type} : ResTree α → List (String × α)
  | .node _ m => m

/-- Fuel-indexed version of `get_method_details_from_doc`'s while loop
(lines 118-122 of `utils.py`): while more than one segment remains, pop the
*last* segment and descend into `resources`; finally pop the remaining
segment and look it up in `methods`.  Popping an empty list raises
(modelled as `none`); fuel only bounds the loop and is irrelevant whenever
it is at least `length - 1` (`get_method_aux_fuel`). -/
def get_method_aux {α : Type} : Nat → ResTree α → List String → Option α
  | _, _, [] => none
  | _, t, [verb] => lookupKV t.methods verb
  | 0, _, _ :: _ :: _ => none
  | f+1, t, a :: b :: p =>
    match (a :: b :: p).getLast? with
    | none => none
    | some r =>
      match lookupKV t.resources r with
      | none => none
      | some t' => get_method_aux f t' (a :: b :: p).dropLast

/-- `get_method_details_from_doc doc method` of `utils.py`. -/
def get_method_details_from_doc {α : Type} (t : ResTree α) (path : List String) :
    Option α :=
  get_method_aux path.length t path

/-- Top-down descent through the `resources` mappings, outermost resource
first — the traversal order asserted by the spec. -/
def descend {α : Type} : ResTree α → List String → Option (ResTree α)
  | t, [] => some t
  | t, r :: rs =>
    match lookupKV t.resources r with
    | none => none
    | some t' => descend t' rs

/-- With at least two segments, one loop iteration of
`get_method_details_from_doc`: descend into the last segment's resource and
continue on the remaining segments. -/
theorem get_method_aux_step {α : Type} (f : Nat) (t : ResTree α)
    (p : List String) (h : 2 ≤ p.length) :
    get_method_aux (f+1) t p
      = match p.getLast? with
        | none => none
        | some r =>
          match lookupKV t.resources r with
          | none => none
          | some t' => get_method_aux f t' p.dropLast := by
  match p, h with
  | a :: b :: rest, _ => rfl

/-- The fuel of `get_method_aux` is irrelevant once it is at least
`length - 1`. -/
theorem get_method_aux_fuel {α : Type} :
    ∀ (f₁ f₂ : Nat) (t : ResTree α) (p : List String),
      p.length ≤ f₁ + 1 → p.length ≤ f₂ + 1 →
      get_method_aux f₁ t p = get_method_aux f₂ t p := by
  intro f₁
  induction f₁ with
  | zero =>
    intro f₂ t p h1 h2
    cases p with
    | nil => cases f₂ <;> rfl
    | cons a q =>
      cases q with
      | nil => cases f₂ <;> rfl
      | cons b rest =>
        have hlen2 : (a :: b :: rest).length = rest.length + 2 := by simp
        omega
  | succ g IH =>
    intro f₂ t p h1 h2
    cases p with
    | nil => cases f₂ <;> rfl
    | cons a q =>
      cases q with
      | nil => cases f₂ <;> rfl
      | cons b rest =>
        have hlen : 2 ≤ (a :: b :: rest).length := by simp
        cases f₂ with
        | zero =>
          have hlen2 : (a :: b :: rest).length = rest.length + 2 := by simp
          omega
        | succ g₂ =>
          rw [get_method_aux_step g t _ hlen, get_method_aux_step g₂ t _ hlen]
          cases hl : (a :: b :: rest).getLast? with
          | none => rfl
          | some r =>
            dsimp only
            cases hr : lookupKV t.resources r with
            | none => rfl
            | some t' =>
              dsimp only
              have e1 : (a :: b :: rest).length ≤ g + 2 := h1
              have e2 : (a :: b :: rest).length ≤ g₂ + 2 := h2
              simp only [List.length_cons] at e1 e2
              have hd : (a :: b :: rest).dropLast.length ≤ g + 1 := by
                simp only [List.length_dropLast, List.length_cons]
                omega
              have hd2 : (a :: b :: rest).dropLast.length ≤ g₂ + 1 := by
                simp only [List.length_dropLast, List.length_cons]
                omega
              exact IH g₂ t' _ hd hd2

/-- Feeding the *reversed* segment list (verb first) to
`get_method_details_from_doc` — which pops segments from the tail — makes
the traversal descend through `resources` from the outermost segment inward
and finally look the verb up in `methods`. -/
theorem get_method_traversal {α : Type} :
    ∀ (segs : List String) (verb : String) (t : ResTree α),
      get_method_details_from_doc t ((segs ++ [verb]).reverse)
        = (descend t segs).bind (fun u => lookupKV u.methods verb) := by
  intro segs
  induction segs with
  | nil =>
    intro verb t
    simp [get_method_details_from_doc, get_method_aux, descend]
  | cons r rs IH =>
    intro verb t
    have hp : ((r :: rs) ++ [verb]).reverse = ((rs ++ [verb]).reverse) ++ [r] := by
      simp
    rw [get_method_details_from_doc, hp]
    have hlen : (((rs ++ [verb]).reverse) ++ [r]).length
        = ((rs ++ [verb]).reverse).length + 1 := by simp
    have hlen2 : 2 ≤ (((rs ++ [verb]).reverse) ++ [r]).length := by simp
    rw [hlen, get_method_aux_step]
    · rw [List.getLast?_concat, List.dropLast_concat]
      dsimp only
      cases hr : lookupKV t.resources r with
      | none => simp [descend, hr]
      | some t' =>
        dsimp only
        have hq : ((rs ++ [verb]).reverse).length = (rs ++ [verb]).reverse.length := rfl
        have : get_method_aux ((rs ++ [verb]).reverse).length t' ((rs ++ [verb]).reverse)
            = get_method_details_from_doc t' ((rs ++ [verb]).reverse) := rfl
        rw [this, IH verb t']
        simp [descend, hr]
    · exact hlen2

/-- `joinWith c xs` interleaves the separator back between the chunks
(`c.join` of Python). -/
def joinWith (c : Char) : List (List Char) → List Char
  | [] => []
  | [x] => x
  | x :: y :: xs => x ++ c :: joinWith c (y :: xs)

/-- `splitCh` never returns the empty list of chunks. -/
theorem splitCh_ne_nil (sep : Char) (l : List Char) : splitCh sep l ≠ [] := by
  cases l with
  | nil => simp [splitCh]
  | cons c rest =>
    by_cases h : c = sep
    · simp [splitCh, h]
    · simp only [splitCh, if_neg h]
      cases hs : splitCh sep rest <;> simp

/-- No chunk produced by `splitCh` contains the separator. -/
theorem splitCh_no_sep (sep : Char) :
    ∀ (l : List Char), ∀ x ∈ splitCh sep l, sep ∉ x := by
  intro l
  induction l with
  | nil =>
    intro x hx
    simp [splitCh] at hx
    simp [hx]
  | cons c rest IH =>
    intro x hx
    by_cases h : c = sep
    · simp only [splitCh, if_pos h] at hx
      rcases List.mem_cons.mp hx with rfl | hx'
      · simp
      · exact IH x hx'
    · simp only [splitCh, if_neg h] at hx
      cases hs : splitCh sep rest with
      | nil => exact absurd hs (splitCh_ne_nil sep rest)
      | cons y ys =>
        rw [hs] at hx
        rcases List.mem_cons.mp hx with rfl | hx'
        · intro hmem
          rcases List.mem_cons.mp hmem with rfl | hmem'
          · exact h rfl
          · exact IH y (hs ▸ List.mem_cons_self y ys) hmem'
        · exact IH x (hs ▸ List.mem_cons_of_mem y hx')

/-- `joinWith` is a left inverse of `splitCh`. -/
theorem joinWith_splitCh (sep : Char) :
    ∀ (l : List Char), joinWith sep (splitCh sep l) = l := by
  intro l
  induction l with
  | nil => rfl
  | cons c rest IH =>
    by_cases h : c = sep
    · simp only [splitCh, if_pos h]
      cases hs : splitCh sep rest with
      | nil => exact absurd hs (splitCh_ne_nil sep rest)
      | cons y ys =>
        show [] ++ sep :: joinWith sep (y :: ys) = c :: rest
        rw [← hs, IH, h]
        rfl
    · simp only [splitCh, if_neg h]
      cases hs : splitCh sep rest with
      | nil => exact absurd hs (splitCh_ne_nil sep rest)
      | cons y ys =>
        cases ys with
        | nil =>
          show c :: y = c :: rest
          have : joinWith sep (splitCh sep rest) = rest := IH
          rw [hs] at this
          exact congrArg (c :: ·) this
        | cons z zs =>
          show (c :: y) ++ sep :: joinWith sep (z :: zs) = c :: rest
          have : joinWith sep (splitCh sep rest) = rest := IH
          rw [hs] at this
          show c :: (y ++ sep :: joinWith sep (z :: zs)) = c :: rest
          exact congrArg (c :: ·) this

/-- Splitting a separator-free list yields the single chunk. -/
theorem splitCh_not_mem (sep : Char) :
    ∀ (l : List Char), sep ∉ l → splitCh sep l = [l] := by
  intro l
  induction l with
  | nil => intro _; rfl
  | cons c rest IH =>
    intro h
    have hc : ¬ c = sep := fun he => h (he ▸ List.mem_cons_self c rest)
    have hr : sep ∉ rest := fun hm => h (List.mem_cons_of_mem c hm)
    simp only [splitCh, if_neg hc, IH hr]

/-- Splitting at an explicit first separator occurrence. -/
theorem splitCh_append_sep (sep : Char) :
    ∀ (a b : List Char), sep ∉ a →
      splitCh sep (a ++ sep :: b) = a :: splitCh sep b := by
  intro a
  induction a with
  | nil =>
    intro b _
    simp [splitCh]
  | cons c a' IH =>
    intro b h
    have hc : ¬ c = sep := fun he => h (he ▸ List.mem_cons_self c a')
    have ha : sep ∉ a' := fun hm => h (List.mem_cons_of_mem c hm)
    show splitCh sep (c :: (a' ++ sep :: b)) = (c :: a') :: splitCh sep b
    simp only [splitCh, if_neg hc, IH b ha]

/-- `splitCh` is a left inverse of `joinWith` on nonempty lists of
separator-free chunks. -/
theorem splitCh_joinWith (sep : Char) :
    ∀ (xs : List (List Char)), (∀ x ∈ xs, sep ∉ x) → xs ≠ [] →
      splitCh sep (joinWith sep xs) = xs := by
  intro xs
  induction xs with
  | nil => intro _ h; exact absurd rfl h
  | cons x xs' IH =>
    intro hall _
    cases xs' with
    | nil =>
      show splitCh sep x = [x]
      exact splitCh_not_mem sep x (hall x (List.mem_cons_self x []))
    | cons y ys =>
      show splitCh sep (x ++ sep :: joinWith sep (y :: ys)) = x :: y :: ys
      rw [splitCh_append_sep sep x _ (hall x (List.mem_cons_self x _))]
      rw [IH (fun z hz => hall z (List.mem_cons_of_mem x hz)) (by simp)]

/-- `breakOnFirst` at an explicit first separator occurrence. -/
theorem breakOnFirst_append (sep : Char) :
    ∀ (a b : List Char), sep ∉ a →
      breakOnFirst sep (a ++ sep :: b) = some (a, b) := by
  intro a
  induction a with
  | nil =>
    intro b _
    simp [breakOnFirst]
  | cons c a' IH =>
    intro b h
    have hc : ¬ c = sep := fun he => h (he ▸ List.mem_cons_self c a')
    have ha : sep ∉ a' := fun hm => h (List.mem_cons_of_mem c hm)
    show breakOnFirst sep (c :: (a' ++ sep :: b)) = some (c :: a', b)
    simp only [breakOnFirst, if_neg hc, IH b ha, Option.map_some']

/-- Whenever the code's parser succeeds, the spec-described parser
("split on the first `:` first") yields the same result — the code's
dot-first parsing only restricts the domain. -/
theorem split_method_refines_claim :
    ∀ (m : String) (s v : String) (path : List String),
      split_method m = some (s, v, path) → split_method_claim m = some (s, v, path) := by
  intro m s v path h
  unfold split_method at h
  cases hsp : splitCh '.' m.data with
  | nil => exact absurd hsp (splitCh_ne_nil _ _)
  | cons p rest =>
    rw [hsp] at h
    dsimp only at h
    cases hc : splitCh ':' p with
    | nil => exact absurd hc (splitCh_ne_nil _ _)
    | cons sL r2 =>
      rw [hc] at h
      cases r2 with
      | nil => exact Option.noConfusion h
      | cons vL r3 =>
        cases r3 with
        | cons w ws => exact Option.noConfusion h
        | nil =>
          injection h with h'
          obtain ⟨h1, h2, h3⟩ : String.mk sL = s ∧ String.mk vL = v
              ∧ (rest.map String.mk).reverse = path := by
            simpa [Prod.mk.injEq] using h'
          subst h1; subst h2; subst h3
          have hpdot : ('.' : Char) ∉ p :=
            splitCh_no_sep '.' m.data p (hsp ▸ List.mem_cons_self p rest)
          have hrest : ∀ x ∈ rest, ('.' : Char) ∉ x := fun x hx =>
            splitCh_no_sep '.' m.data x (hsp ▸ List.mem_cons_of_mem p hx)
          have hpjoin : p = sL ++ ':' :: vL := by
            conv_lhs => rw [← joinWith_splitCh ':' p, hc]
            rfl
          have hsL : (':' : Char) ∉ sL :=
            splitCh_no_sep ':' p sL (hc ▸ List.mem_cons_self _ _)
          have hm : m.data = joinWith '.' (p :: rest) := by
            rw [← hsp, joinWith_splitCh]
          have hsLdot : ('.' : Char) ∉ sL := fun hd =>
            hpdot (hpjoin ▸ List.mem_append_left _ hd)
          have hvLdot : ('.' : Char) ∉ vL := fun hd =>
            hpdot (hpjoin ▸ List.mem_append_right _ (List.mem_cons_of_mem _ hd))
          unfold split_method_claim
          cases rest with
          | nil =>
            have hm2 : m.data = sL ++ ':' :: vL := by rw [hm]; exact hpjoin
            rw [hm2, breakOnFirst_append ':' sL vL hsL]
            dsimp only
            rw [splitCh_not_mem '.' vL hvLdot]
          | cons r rs =>
            have hm2 : m.data = sL ++ ':' :: (vL ++ '.' :: joinWith '.' (r :: rs)) := by
              rw [hm]
              show p ++ '.' :: joinWith '.' (r :: rs) = _
              rw [hpjoin]
              simp [List.append_assoc]
            rw [hm2, breakOnFirst_append ':' sL _ hsL]
            dsimp only
            rw [splitCh_append_sep '.' vL _ hvLdot]
            rw [splitCh_joinWith '.' (r :: rs) (fun x hx => hrest x hx) (by simp)]

/-- C7 counterexample: on `"a.b:v1.get"` the claim's description — split on
the *first* `:`, then split the rest on `.` — yields
`("a.b", "v1", ["get"])`, but the code's parser (which splits on `.` first
and then requires the first dot-segment to unpack on `:` into exactly two
parts) raises instead.  The claim's universally quantified description of
the parse is therefore false. -/
theorem c7_colon_after_dot_counterexample :
    split_method "a.b:v1.get" = none
    ∧ split_method_claim "a.b:v1.get" = some ("a.b", "v1", ["get"]) := ⟨rfl, rfl⟩

/-- C7 (amended): the parser splits the method string on `.` first and then
splits the *first dot-segment* on `:` into exactly (service, version),
raising otherwise; whenever it succeeds it agrees with the claim's
first-colon description; the remaining segments, reversed, are consumed
from the tail by the document traversal, which therefore descends from the
outermost resource inward and finally resolves the verb in `methods`. -/
theorem c7_parse_traversal_amended :
    (∀ (m : String) (s v : String) (path : List String),
      split_method m = some (s, v, path) → split_method_claim m = some (s, v, path))
    ∧ (∀ (α : Type) (t : ResTree α) (segs : List String) (verb : String),
      get_method_details_from_doc t ((segs ++ [verb]).reverse)
        = (descend t segs).bind (fun u => lookupKV u.methods verb))
    ∧ split_method "sheets:v4.spreadsheets.values.get"
      = some ("sheets", "v4", ["get", "values", "spreadsheets"]) :=
  ⟨split_method_refines_claim,
   fun _ t segs verb => get_method_traversal segs verb t,
   rfl⟩

/-- C7 witness: the refinement instantiated on the well-formed example
method name. -/
theorem c7_parse_traversal_amended_witness :
    split_method_claim "sheets:v4.spreadsheets.values.get"
      = some ("sheets", "v4", ["get", "values", "spreadsheets"]) :=
  c7_parse_traversal_amended.1 "sheets:v4.spreadsheets.values.get"
    "sheets" "v4" ["get", "values", "spreadsheets"] rfl

/-- A result row of the video-listing call: the `id` column plus the rest of
the row abstracted into one payload column (the pandas projection of the
other columns is not claim-relevant). -/
structure VRow where
  id : Option String
  payload : Option String
deriving DecidableEq

/-- The all-`None` sentinel row appended by `list_videos`. -/
def emptyRow : VRow := { id := none, payload := none }

/-- `vids.str.match("([-_A-Za-z0-9]{11})")` of `core.py` line 811:
`re.match` anchors at the start only, so the test is "has at least 11
characters and the first 11 are in the class". -/
def validVid (s : String) : Bool :=
  decide (11 ≤ s.data.length)
    && (s.data.take 11).all (fun c => c.isAlphanum || c == '-' || c == '_')

/-- `pandas.Series.unique`: deduplication keeping the first occurrence. -/
def pdUniqueAux : List String → List String → List String
  | _, [] => []
  | seen, x :: xs =>
    if x ∈ seen then pdUniqueAux seen xs else x :: pdUniqueAux (x :: seen) xs

def pdUnique (l : List String) : List String := pdUniqueAux [] l

/-- `numpy.array_split l n`: split into `n` contiguous parts of
as-equal-as-possible sizes, the first `l.length % n` parts one longer. -/
def array_split {α : Type} : List α → Nat → List (List α)
  | _, 0 => []
  | l, n+1 =>
    l.take (l.length / (n+1) + (if l.length % (n+1) = 0 then 0 else 1))
      :: array_split
        (l.drop (l.length / (n+1) + (if l.length % (n+1) = 0 then 0 else 1))) n

/-- Lines 856-861 of `core.py` for one input identifier: take the first
returned row whose `id` equals it (the appended sentinel row's `id` is
`None` and never matches), else the sentinel row; then `result["id"] =
raw_vids` overwrites the `id` column with the raw input. -/
def findRow (items : List VRow) (x : String) : VRow :=
  match items.find? (fun r => r.id == some x) with
  | some r => { r with id := some x }
  | none => { emptyRow with id := some x }

/-- `GoogleAuth.list_videos` (lines 809-862 of `core.py`) with the batch cap
as a parameter (the source hardcodes 50) and the per-batch API call as an
oracle `api` returning the server's `items`: filter the inputs to
well-formed ids, deduplicate, split into `ceil(len/cap)` batches, issue one
call per batch, concatenate the returned rows, and re-project onto the raw
input order.  An input with no well-formed id makes `np.array_split` raise
(0 sections), modelled as `none`. -/
def list_videos_batched (cap : Nat) (api : List String → List VRow)
    (vids : List String) : Option (List VRow) :=
  let u := pdUnique (vids.filter validVid)
  if u.isEmpty then none
  else
    let batches := array_split u ((u.length + cap - 1) / cap)
    let items := (batches.map api).flatten
    some (vids.map (findRow items))

/-- The source's `list_videos`, with its hardcoded per-request cap of 50. -/
def list_videos : (List String → List VRow) → List String → Option (List VRow) :=
  list_videos_batched 50

/-- The deduplicated well-formed identifiers of a `list_videos` call. -/
def uniqueValid (vids : List String) : List String :=
  pdUnique (vids.filter validVid)

/-- The batches issued by `list_videos` (cap 50). -/
def videoBatches (vids : List String) : List (List String) :=
  array_split (uniqueValid vids) (((uniqueValid vids).length + 50 - 1) / 50)

/-- The concatenation of the per-batch API results, in batch order. -/
def videoItems (api : List String → List VRow) (vids : List String) : List VRow :=
  ((videoBatches vids).map api).flatten

/-- `array_split` into a positive number of parts is a partition: joining
the parts restores the list. -/
theorem array_split_join {α : Type} :
    ∀ (n : Nat) (l : List α), (array_split l (n+1)).flatten = l := by
  intro n
  induction n with
  | zero =>
    intro l
    simp [array_split]
  | succ k IH =>
    intro l
    rw [array_split, List.flatten_cons, IH]
    exact List.take_append_drop _ l

/-- Every part produced by `array_split l n` has size at most `cap`
provided `l.length ≤ cap * n`. -/
theorem array_split_size_le {α : Type} (cap : Nat) :
    ∀ (n : Nat) (l : List α), l.length ≤ cap * n →
      ∀ b ∈ array_split l n, b.length ≤ cap := by
  intro n
  induction n with
  | zero => intro l _ b hb; simp [array_split] at hb
  | succ k IH =>
    intro l hlen b hb
    have hdm := Nat.div_add_mod l.length (k+1)
    have hmodlt : l.length % (k+1) < k + 1 := Nat.mod_lt _ (Nat.succ_pos k)
    have hcomm : cap * (k+1) = (k+1) * cap := Nat.mul_comm _ _
    have hscap : l.length / (k+1) + (if l.length % (k+1) = 0 then 0 else 1) ≤ cap := by
      by_cases hr : l.length % (k+1) = 0
      · rw [if_pos hr]
        simp only [Nat.add_zero]
        by_contra hq
        push_neg at hq
        have h1 : (k+1) * (cap + 1) ≤ (k+1) * (l.length / (k+1)) :=
          Nat.mul_le_mul_left _ hq
        have h2 : (k+1) * (cap + 1) = (k+1) * cap + (k+1) := by ring
        omega
      · rw [if_neg hr]
        by_contra hq
        push_neg at hq
        have hq' : cap ≤ l.length / (k+1) := by omega
        have h1 : (k+1) * cap ≤ (k+1) * (l.length / (k+1)) :=
          Nat.mul_le_mul_left _ hq'
        omega
    simp only [array_split, List.mem_cons] at hb
    rcases hb with rfl | hb'
    · calc (l.take _).length ≤ _ := by
            rw [List.length_take]
            exact min_le_left _ _
        _ ≤ cap := hscap
    · apply IH (l.drop _) ?_ b hb'
      rw [List.length_drop]
      by_cases hck : l.length ≤ cap * k
      · calc l.length - _ ≤ l.length := Nat.sub_le _ _
          _ ≤ cap * k := hck
      · push_neg at hck
        have hrle : l.length - cap * k ≤ cap := by
          have h2 : cap * (k + 1) = cap * k + cap := by ring
          omega
        have hmul : (l.length - cap * k) * (k+1) ≤ l.length := by
          have h3 : (l.length - cap * k) * (k+1) = (l.length - cap * k) * k
              + (l.length - cap * k) := by ring
          have h4 : (l.length - cap * k) * k ≤ cap * k :=
            Nat.mul_le_mul_right _ hrle
          omega
        have hq : l.length - cap * k ≤ l.length / (k+1) :=
          (Nat.le_div_iff_mul_le (Nat.succ_pos k)).2 hmul
        have hsf : l.length - cap * k
            ≤ l.length / (k+1) + (if l.length % (k+1) = 0 then 0 else 1) :=
          le_trans hq (Nat.le_add_right _ _)
        have h6 : l.length - (l.length - cap * k) = cap * k := by omega
        calc l.length - (l.length / (k+1) + (if l.length % (k+1) = 0 then 0 else 1))
            ≤ l.length - (l.length - cap * k) := Nat.sub_le_sub_left hsf _
          _ = cap * k := h6

/-- An 11-character identifier that the concrete example's server finds. -/
def vidA : String := "AAAAAAAAAAA"

/-- An 11-character identifier that the concrete example's server finds. -/
def vidB : String := "BBBBBBBBBBB"

/-- An 11-character identifier the concrete example's server does not find. -/
def vidZ : String := "ZZZZZZZZZZZ"

def rowA : VRow := { id := some vidA, payload := some "PA" }

def rowB : VRow := { id := some vidB, payload := some "PB" }

/-- The example server: finds `vidA` and `vidB`, silently drops everything
else. -/
def exApi : List String → List VRow :=
  fun batch => batch.filterMap (fun x =>
    if x = vidA then some rowA else if x = vidB then some rowB else none)

/-- C9: bulk video listing partitions the deduplicated well-formed
identifiers into `ceil(n/50)` batches of size at most 50 whose concatenation
is the whole list, issues one API call per batch, concatenates the returned
items in batch order, and re-projects them onto the original input order —
position `i` of the output is the first returned row whose id is input `i`
(duplicates included, id column rewritten to the raw input), or the sentinel
empty row when no returned row matches; on the concrete instance
`[A, A, Z, B]` with only `A` and `B` found and batch size 2 the output is
`[A_row, A_row, sentinel_row, B_row]`. -/
theorem c9_bulk_reprojection :
    (∀ (api : List String → List VRow) (vids : List String),
      uniqueValid vids ≠ [] →
      (videoBatches vids).flatten = uniqueValid vids
      ∧ (∀ b ∈ videoBatches vids, b.length ≤ 50)
      ∧ list_videos api vids = some (vids.map (findRow (videoItems api vids)))
      ∧ (∀ i : Nat, (vids.map (findRow (videoItems api vids)))[i]?
          = (vids[i]?).map (findRow (videoItems api vids)))
      ∧ (∀ x r, (videoItems api vids).find? (fun q => q.id == some x) = some r →
          findRow (videoItems api vids) x = { r with id := some x })
      ∧ (∀ x, (videoItems api vids).find? (fun q => q.id == some x) = none →
          findRow (videoItems api vids) x = { emptyRow with id := some x }))
    ∧ list_videos_batched 2 exApi [vidA, vidA, vidZ, vidB]
      = some [rowA, rowA, { id := some vidZ, payload := none }, rowB] := by
  refine ⟨?_, rfl⟩
  intro api vids hne
  have hpos : 0 < (uniqueValid vids).length := List.length_pos.mpr hne
  obtain ⟨n, hn⟩ : ∃ n, ((uniqueValid vids).length + 50 - 1) / 50 = n + 1 :=
    ⟨((uniqueValid vids).length + 50 - 1) / 50 - 1, by omega⟩
  have hF : (uniqueValid vids).isEmpty = false := by
    cases h' : uniqueValid vids with
    | nil => exact absurd h' hne
    | cons a as => rfl
  refine ⟨?_, ?_, ?_, ?_, ?_, ?_⟩
  · show (array_split (uniqueValid vids) _).flatten = _
    rw [hn]
    exact array_split_join n _
  · intro b hb
    refine array_split_size_le 50 _ (uniqueValid vids) ?_ b hb
    omega
  · show list_videos_batched 50 api vids = _
    unfold list_videos_batched
    rw [show pdUnique (vids.filter validVid) = uniqueValid vids from rfl]
    simp only [hF, Bool.false_eq_true, if_false]
    rfl
  · intro i
    exact List.getElem?_map _ vids i
  · intro x r h
    simp [findRow, h]
  · intro x h
    simp [findRow, h]

/-- C9 witness: the universal part instantiated on the concrete example
call (which has well-formed identifiers), yielding the re-projection
equation for it. -/
theorem c9_bulk_reprojection_witness :
    list_videos exApi [vidA, vidA, vidZ, vidB]
      = some ([vidA, vidA, vidZ, vidB].map
          (findRow (videoItems exApi [vidA, vidA, vidZ, vidB]))) :=
  (c9_bulk_reprojection.1 exApi [vidA, vidA, vidZ, vidB] (by decide)).2.2.1

/-- The bijective base-26 digit loop of `num2letter` (`utils.py` lines
146-152), fuel-indexed so that it is structurally recursive and evaluates in
the kernel: each iteration on `n ≥ 1` emits `(n-1) % 26` as a new leading
digit and continues on `(n-1) / 26`; digits are in output order (most
significant first).  Fuel `n` is always sufficient (`digits26Aux_fuel`). -/
def digits26Aux : Nat → Nat → List Nat
  | 0, _ => []
  | _+1, 0 => []
  | f+1, n+1 => digits26Aux f (n / 26) ++ [n % 26]

def digits26 (n : Nat) : List Nat := digits26Aux n n

/-- `num2letter` of `utils.py`: Excel-style column name; the loop body is
`n, r = divmod(n - 1, 26); name = chr(r + ord('A')) + name`, and a
non-positive input never enters the loop, giving `""`. -/
def num2letter (n : Int) : String :=
  String.mk ((digits26 n.toNat).map (fun r => Char.ofNat (r + 65)))

/-- The value of a column name under the claim's digit convention
(`A` = 1, …, `Z` = 26): the Horner form of `Σ dᵢ · 26^(k-i)`. -/
def lettersVal (s : String) : Nat :=
  s.data.foldl (fun a c => a * 26 + (c.toNat - 64)) 0

/-- The same value on raw digit lists (`r` = 0-based digit, worth `r+1`). -/
def rawVal (rs : List Nat) : Nat := rs.foldl (fun a r => a * 26 + (r + 1)) 0

/-- The letters `A`–`Z`. -/
def upperAlphabet : List Char := "ABCDEFGHIJKLMNOPQRSTUVWXYZ".data

/-- The 0-based digits of a column-name string (`'A'` ↦ 0, …, `'Z'` ↦ 25). -/
def digitsOf (s : String) : List Nat := s.data.map (fun c => c.toNat - 65)

/-- The fuel of `digits26Aux` is irrelevant from `n` upward. -/
theorem digits26Aux_fuel :
    ∀ (n f₁ f₂ : Nat), n ≤ f₁ → n ≤ f₂ → digits26Aux f₁ n = digits26Aux f₂ n := by
  intro n
  induction n using Nat.strong_induction_on with
  | _ n IH =>
    intro f₁ f₂ h1 h2
    cases n with
    | zero => cases f₁ <;> cases f₂ <;> rfl
    | succ m =>
      cases f₁ with
      | zero => omega
      | succ g₁ =>
        cases f₂ with
        | zero => omega
        | succ g₂ =>
          show digits26Aux g₁ (m / 26) ++ [m % 26]
            = digits26Aux g₂ (m / 26) ++ [m % 26]
          have hlt : m / 26 < m + 1 := Nat.lt_succ_of_le (Nat.div_le_self m 26)
          have hb1 : m / 26 ≤ g₁ := le_trans (Nat.div_le_self m 26) (by omega)
          have hb2 : m / 26 ≤ g₂ := le_trans (Nat.div_le_self m 26) (by omega)
          rw [IH (m / 26) hlt g₁ g₂ hb1 hb2]

/-- The defining recurrence of the digit loop. -/
theorem digits26_succ (n : Nat) :
    digits26 (n+1) = digits26 (n / 26) ++ [n % 26] := by
  show digits26Aux n (n / 26) ++ [n % 26] = digits26Aux (n / 26) (n / 26) ++ [n % 26]
  rw [digits26Aux_fuel (n / 26) n (n / 26) (Nat.div_le_self n 26) (le_refl _)]

/-- All emitted digits are below 26. -/
theorem digits26_lt : ∀ (n : Nat), ∀ r ∈ digits26 n, r < 26 := by
  intro n
  induction n using Nat.strong_induction_on with
  | _ n IH =>
    cases n with
    | zero => intro r hr; cases hr
    | succ m =>
      intro r hr
      rw [digits26_succ] at hr
      rcases List.mem_append.mp hr with h | h
      · exact IH (m / 26) (Nat.lt_succ_of_le (Nat.div_le_self m 26)) r h
      · have : r = m % 26 := by simpa using h
        subst this
        exact Nat.mod_lt _ (by omega)

theorem rawVal_append (rs : List Nat) (r : Nat) :
    rawVal (rs ++ [r]) = rawVal rs * 26 + (r + 1) := by
  simp [rawVal, List.foldl_append]

/-- The digit list of `n` evaluates back to `n`. -/
theorem rawVal_digits26 : ∀ (n : Nat), rawVal (digits26 n) = n := by
  intro n
  induction n using Nat.strong_induction_on with
  | _ n IH =>
    cases n with
    | zero => rfl
    | succ m =>
      rw [digits26_succ, rawVal_append,
        IH (m / 26) (Nat.lt_succ_of_le (Nat.div_le_self m 26))]
      omega

/-- Digit lists below 26 are recovered from their value: uniqueness of the
bijective base-26 representation. -/
theorem digits26_rawVal :
    ∀ (rs : List Nat), (∀ r ∈ rs, r < 26) → digits26 (rawVal rs) = rs := by
  intro rs
  induction rs using List.reverseRecOn with
  | nil => intro _; rfl
  | append_singleton ds d IHds =>
    intro hall
    rw [rawVal_append]
    have hd : d < 26 := hall d (by simp)
    have h1 : rawVal ds * 26 + (d + 1) = (rawVal ds * 26 + d) + 1 := by omega
    rw [h1, digits26_succ]
    have hdiv : (rawVal ds * 26 + d) / 26 = rawVal ds := by omega
    have hmod : (rawVal ds * 26 + d) % 26 = d := by omega
    rw [hdiv, hmod, IHds (fun r hr => hall r (List.mem_append_left _ hr))]

/-- Digits below 26 map into `A`–`Z` with the expected code point. -/
theorem char_of_digit :
    ∀ r : Nat, r < 26 →
      (Char.ofNat (r + 65)).toNat = r + 65
      ∧ Char.ofNat (r + 65) ∈ upperAlphabet := by decide

/-- Code-point bounds of the letters `A`–`Z`. -/
theorem upperAlphabet_bounds :
    ∀ c ∈ upperAlphabet, 65 ≤ c.toNat ∧ c.toNat ≤ 90 := by decide

/-- `lettersVal` over an encoded digit list is `rawVal`. -/
theorem foldl_letters :
    ∀ (rs : List Nat) (a : Nat), (∀ r ∈ rs, r < 26) →
      List.foldl (fun acc c => acc * 26 + (c.toNat - 64)) a
          (rs.map (fun r => Char.ofNat (r + 65)))
        = List.foldl (fun acc r => acc * 26 + (r + 1)) a rs := by
  intro rs
  induction rs with
  | nil => intro a _; rfl
  | cons r rs' IH =>
    intro a hall
    have hr : r < 26 := hall r (List.mem_cons_self _ _)
    have hc : (Char.ofNat (r + 65)).toNat = r + 65 := (char_of_digit r hr).1
    show List.foldl _ (a * 26 + ((Char.ofNat (r + 65)).toNat - 64)) _ = _
    rw [hc]
    have h2 : a * 26 + (r + 65 - 64) = a * 26 + (r + 1) := by omega
    rw [h2]
    exact IH _ (fun x hx => hall x (List.mem_cons_of_mem _ hx))

/-- C10: for `n ≥ 1`, `num2letter n` is the Excel-style bijective base-26
column name — the unique nonempty string over `A`–`Z` whose digits
(`A` = 1, …, `Z` = 26) evaluate to `n` — with
`num2letter 1 = "A"`, `num2letter 26 = "Z"`, `num2letter 27 = "AA"`,
`num2letter 703 = "AAA"`; and for `n ≤ 0` it returns `""`. -/
theorem c10_num2letter_correct (n : Int) :
    (1 ≤ n →
      num2letter n ≠ ""
      ∧ (∀ c ∈ (num2letter n).data, c ∈ upperAlphabet)
      ∧ (lettersVal (num2letter n) : Int) = n
      ∧ (∀ s : String, s ≠ "" → (∀ c ∈ s.data, c ∈ upperAlphabet) →
          (lettersVal s : Int) = n → s = num2letter n))
    ∧ (n ≤ 0 → num2letter n = "")
    ∧ num2letter 1 = "A" ∧ num2letter 26 = "Z" ∧ num2letter 27 = "AA"
    ∧ num2letter 703 = "AAA" := by
  refine ⟨?_, ?_, rfl, rfl, rfl, rfl⟩
  · intro hn
    have hm : 1 ≤ n.toNat := by omega
    have hcast : ((n.toNat : Nat) : Int) = n := Int.toNat_of_nonneg (by omega)
    obtain ⟨k, hk⟩ : ∃ k, n.toNat = k + 1 := ⟨n.toNat - 1, by omega⟩
    have hlt : ∀ r ∈ digits26 n.toNat, r < 26 := digits26_lt n.toNat
    refine ⟨?_, ?_, ?_, ?_⟩
    · intro he
      have hd : ((digits26 n.toNat).map (fun r => Char.ofNat (r + 65))) = [] :=
        congrArg String.data he
      rw [List.map_eq_nil_iff] at hd
      rw [hk, digits26_succ] at hd
      exact absurd hd (by simp)
    · intro c hc
      obtain ⟨r, hr, rfl⟩ := List.mem_map.mp hc
      exact (char_of_digit r (hlt r hr)).2
    · have hv : lettersVal (num2letter n) = rawVal (digits26 n.toNat) := by
        show List.foldl _ 0 ((digits26 n.toNat).map (fun r => Char.ofNat (r + 65)))
          = _
        exact foldl_letters (digits26 n.toNat) 0 hlt
      rw [hv, rawVal_digits26, hcast]
    · intro s hs hchars hval
      have hb : ∀ c ∈ s.data, 65 ≤ c.toNat ∧ c.toNat ≤ 90 := fun c hc =>
        upperAlphabet_bounds c (hchars c hc)
      have hrs : ∀ r ∈ digitsOf s, r < 26 := by
        intro r hr
        simp only [digitsOf] at hr
        obtain ⟨c, hc, rfl⟩ := List.mem_map.mp hr
        have := hb c hc
        omega
      have hmap : (digitsOf s).map (fun r => Char.ofNat (r + 65)) = s.data := by
        simp only [digitsOf]
        rw [List.map_map]
        have hpt : ∀ c ∈ s.data,
            (Char.ofNat ∘ fun x => x + 65) ((fun c : Char => c.toNat - 65) c) = c := by
          intro c hc
          have h65 : c.toNat - 65 + 65 = c.toNat := by
            have := hb c hc
            omega
          show Char.ofNat (c.toNat - 65 + 65) = c
          rw [h65]
          exact Char.ofNat_toNat c
        calc s.data.map ((Char.ofNat ∘ fun x => x + 65) ∘ fun c : Char => c.toNat - 65)
            = s.data.map id := List.map_congr_left hpt
          _ = s.data := List.map_id s.data
      have hvr : rawVal (digitsOf s) = lettersVal s := by
        have h := foldl_letters (digitsOf s) 0 hrs
        rw [hmap] at h
        exact h.symm
      have hvn : lettersVal s = n.toNat := by omega
      have hdig : digits26 n.toNat = digitsOf s := by
        rw [← hvn, ← hvr]
        exact digits26_rawVal _ hrs
      show s = num2letter n
      unfold num2letter
      rw [hdig, hmap]
  · intro hn
    have : n.toNat = 0 := by omega
    unfold num2letter
    rw [this]
    rfl

/-- C10 witness: the characterisation applied at `n = 27`: a nonempty
result whose digit value is 27 (and, by the concrete conjunct, equal to
`"AA"`). -/
theorem c10_num2letter_correct_witness :
    num2letter 27 ≠ "" ∧ (lettersVal (num2letter 27) : Int) = 27 :=
  ⟨((c10_num2letter_correct 27).1 (by norm_num)).1,
   ((c10_num2letter_correct 27).1 (by norm_num)).2.2.1⟩

/-- C6 witness: the amended classification applied to a concrete record
with a refresh-token field. -/
theorem c6_classification_amended_witness :
    classifyCred (.record [("refresh_token", "r")]) = CredType.client_id := by
  have h := c6_classification_amended.1 [("refresh_token", "r")]
  simpa using h
